import Mathlib

/-!
# Verification of the urwald reactive UI toolkit

A shallow embedding of the urwald library's core primitives:

* the reactive state container (`state` in `src/state.ts`, both the
  Proxy-based deep-reactive variant and the plain value-cell variant),
* the computed value cache (`computed` in `src/utils.ts`),
* the conditional render controller (`when`),
* the keyed list reconciler (`renderList` together with `isDeepEqual`),
* the router's route-resolution fallback (`renderRoute` in `src/router.ts`).

JavaScript values handled by the deep-reactive container are modelled by the
inductive `JVal` (numbers, strings, booleans, null, and plain objects as
ordered key/value lists — JavaScript objects preserve insertion order for
string keys).  DOM nodes are modelled by natural-number identifiers; the
children of a container element are a list of identifiers.  Observer
callbacks are modelled by identifiers as well, and "calling the observers"
is modelled by returning the list of (observer, argument) calls the code
performs, in order.
-/

namespace Urwald

/-- JavaScript values stored in a deep-reactive state container: primitives
and plain objects.  An object is its ordered list of own properties. -/
inductive JVal where
  | jnum  : Int → JVal
  | jstr  : String → JVal
  | jbool : Bool → JVal
  | jnull : JVal
  | jobj  : List (String × JVal) → JVal

/-- JavaScript strict equality `===` restricted to the values our model can
distinguish: primitives compare by value; two object values are modelled as
distinct references (assigning an object through the proxy always installs a
fresh reference in the scenarios of interest). -/
def jsStrictEq : JVal → JVal → Bool
  | .jnum a,  .jnum b  => a == b
  | .jstr a,  .jstr b  => a == b
  | .jbool a, .jbool b => a == b
  | .jnull,   .jnull   => true
  | _,        _        => false

/-- `Reflect.get target prop`: the first binding of the property, if any
(JavaScript object keys are unique, so "first" is "the" binding). -/
def objGet (fields : List (String × JVal)) (k : String) : Option JVal :=
  match fields.find? (fun kv => kv.1 == k) with
  | some kv => some kv.2
  | none    => none

/-- `Reflect.set target prop v`: overwrite an existing property in place
(JavaScript keeps its position in the insertion order) or append a new one. -/
def objSet : List (String × JVal) → String → JVal → List (String × JVal)
  | [],         k, v => [(k, v)]
  | kv :: rest, k, v =>
    if kv.1 == k then (k, v) :: rest else kv :: objSet rest k v

/-- Reading a property path through the reactive handle (`makeReactive`'s
`get` trap wraps nested objects in further proxies but returns the same
underlying values, so a read is a plain path lookup).  `none` models the
JavaScript error of reading a property of a non-object. -/
def proxyGet : JVal → List String → Option JVal
  | v, [] => some v
  | .jobj fields, k :: rest =>
    match objGet fields k with
    | some w => proxyGet w rest
    | none   => none
  | _, _ :: _ => none

/-- One property assignment `root.p₁.p₂.….pₙ = v` through the reactive
handle.  The `get` trap is traversed for the path prefix; the final segment
hits `makeReactive`'s `set` trap:

    const oldValue = Reflect.get(target, prop, receiver);
    if (oldValue !== value) { Reflect.set(...); notifyObservers(); }

The result is the updated root value together with the number of
`notifyObservers` passes performed (0 or 1).  `none` models the JavaScript
error of navigating into a non-object. -/
def proxySet : JVal → List String → JVal → Option (JVal × Nat)
  | .jobj fields, [k], v =>
    match objGet fields k with
    | some oldValue =>
      if jsStrictEq oldValue v then some (.jobj fields, 0)
      else some (.jobj (objSet fields k v), 1)
    | none => some (.jobj (objSet fields k v), 1)
  | .jobj fields, k :: rest₁ :: rest₂, v =>
    match objGet fields k with
    | some (.jobj sub) =>
      match proxySet (.jobj sub) (rest₁ :: rest₂) v with
      | some (w, n) => some (.jobj (objSet fields k w), n)
      | none        => none
    | _ => none
  | _, _, _ => none

/-- `isDeepEqual` from `src/utils.ts`: primitives by `===`; objects by equal
key-count plus, for every key of `a`, membership in `b`'s keys and deep
equality of the two values.  (JavaScript object keys are unique, so `a[key]`
for a key enumerated from `a` is exactly the pair's own value.) -/
def isDeepEqual : JVal → JVal → Bool
  | .jobj fa, .jobj fb =>
    ((fa.map Prod.fst).length == (fb.map Prod.fst).length) &&
    fa.attach.all (fun kv =>
      (fb.map Prod.fst).contains kv.1.1 &&
      isDeepEqual kv.1.2 ((objGet fb kv.1.1).getD .jnull))
  | a, b => jsStrictEq a b
termination_by a _ => sizeOf a
decreasing_by
  simp_wf
  have h := List.sizeOf_lt_of_mem kv.2
  obtain ⟨⟨k, v⟩, hmem⟩ := kv
  simp at h ⊢
  omega

/-- The final `Reflect.get(target, prop)` comparison input of the `set`
trap, reached through the same navigation as `proxySet`: `some (some o)`
when the property exists with value `o`, `some none` when the final
property is absent (JavaScript `undefined`), `none` when navigation into a
non-object fails. -/
def pathOldValue : JVal → List String → Option (Option JVal)
  | .jobj fields, [k] => some (objGet fields k)
  | .jobj fields, k :: rest₁ :: rest₂ =>
    match objGet fields k with
    | some (.jobj sub) => pathOldValue (.jobj sub) (rest₁ :: rest₂)
    | _ => none
  | _, _ => none

/-- `oldValue !== value` for a possibly-absent old value: an absent
property reads as `undefined`, which is never strictly equal to a stored
value. -/
def jsStrictEqOpt : Option JVal → JVal → Bool
  | some o, w => jsStrictEq o w
  | none,   _ => false

/-- Writing a path without the `set` trap's bookkeeping: the plain
"mutated value" the updater function produces, used as the
specification-side description of an assignment's effect on the value. -/
def pathWrite : JVal → List String → JVal → Option JVal
  | .jobj fields, [k], v => some (.jobj (objSet fields k v))
  | .jobj fields, k :: rest₁ :: rest₂, v =>
    match objGet fields k with
    | some (.jobj sub) =>
      match pathWrite (.jobj sub) (rest₁ :: rest₂) v with
      | some w => some (.jobj (objSet fields k w))
      | none   => none
    | _ => none
  | _, _, _ => none

/-- A sequence of property assignments (an updater function's writes),
applied one after another; the "value the updater produced". -/
def applyScript (v : JVal) : List (List String × JVal) → Option JVal
  | [] => some v
  | (path, w) :: rest =>
    match pathWrite v path w with
    | some v₁ => applyScript v₁ rest
    | none    => none

/-- Specification-side count of the assignments in a script that actually
change a value (`oldValue !== value` at the moment of the write). -/
def changedWriteCount (v : JVal) : List (List String × JVal) → Option Nat
  | [] => some 0
  | (path, w) :: rest =>
    match pathOldValue v path, pathWrite v path w with
    | some old, some v₁ =>
      match changedWriteCount v₁ rest with
      | some n => some ((if jsStrictEqOpt old w then 0 else 1) + n)
      | none   => none
    | _, _ => none

/-! ## The reactive state container (`state`) -/

/-- A state container as its observers see it: the current value and the
registered observer set (`Set<Observer>`: insertion order, no duplicates).
Observer callbacks are modelled by identifiers. -/
structure StateManager (α : Type) where
  value : α
  observers : List Nat

/-- `notifyObservers()`: call every registered observer, in registration
order, with the current value.  The result is the list of calls made. -/
def notifyObservers {α : Type} (s : StateManager α) : List (Nat × α) :=
  s.observers.map (fun o => (o, s.value))

/-- `observe(observer)`: add the observer to the set, then call it
immediately with the current value.  Everything in the returned call list
happens synchronously inside `observe`, before it returns. -/
def observe {α : Type} (s : StateManager α) (cb : Nat) : StateManager α × List (Nat × α) :=
  let obs := if s.observers.contains cb then s.observers else s.observers ++ [cb]
  ({ s with observers := obs }, [(cb, s.value)])

/-- The plain value-cell variant's `set value(newValue)`: store the new
value, then run one notification pass. -/
def writeValue {α : Type} (s : StateManager α) (v : α) : StateManager α × List (Nat × α) :=
  let s₁ : StateManager α := { s with value := v }
  (s₁, notifyObservers s₁)

/-- The plain value-cell variant's `update(updater)`: apply the updater to
the current value, store the result, run one notification pass. -/
def updateValue {α : Type} (s : StateManager α) (f : α → α) : StateManager α × List (Nat × α) :=
  writeValue s (f s.value)

/-- One property assignment through a deep-reactive container's handle
(`manager.state.path… = v`): the `set` trap mutates the target and then
runs `notifyObservers()` — after the mutation — once per committed write,
not at all for a write of a strictly-equal value. -/
def containerSet (s : StateManager JVal) (path : List String) (v : JVal) :
    Option (StateManager JVal × List (Nat × JVal)) :=
  match proxySet s.value path v with
  | some (w, n) =>
    let s₁ : StateManager JVal := { s with value := w }
    some (s₁, (List.replicate n (notifyObservers s₁)).flatten)
  | none => none

/-- The deep-reactive variant's `update(updater)`: the updater runs against
the live proxy, so each of its assignments goes through the `set` trap;
`update` itself performs no further notification.  The updater is modelled
by the sequence of assignments it performs. -/
def containerUpdate (s : StateManager JVal) :
    List (List String × JVal) → Option (StateManager JVal × List (Nat × JVal))
  | [] => some (s, [])
  | (path, v) :: rest =>
    match containerSet s path v with
    | some (s₁, calls₁) =>
      match containerUpdate s₁ rest with
      | some (s₂, calls₂) => some (s₂, calls₁ ++ calls₂)
      | none => none
    | none => none

/-! ## The computed value cache (`computed`) -/

/-- The computed-value cache: the cached value, the validity flag, and (for
specification purposes) how many times the getter has run so far. -/
structure Computed (α : Type) where
  cachedValue : α
  isValid : Bool
  getterCalls : Nat

/-- What one dependency notification does to the cache: the observer
`computed` registers on every dependency runs `isValid = false`. -/
def depNotify {α : Type} (c : Computed α) : Computed α :=
  { c with isValid := false }

/-- `n` dependency notifications in a row. -/
def iterDepNotify {α : Type} : Nat → Computed α → Computed α
  | 0, c => c
  | n + 1, c => iterDepNotify n (depNotify c)

/-- `computed(getter, dependencies)`: run the getter once to fill the
cache, then `dep.observe(() => { isValid = false })` on each of the
`nDeps` dependencies — and `observe` calls every newly registered observer
immediately, so each subscription invalidates the cache at construction
time.  The getter is modelled as a function of the dependencies' aggregate
current value `env`. -/
def computedInit {ε α : Type} (g : ε → α) (env : ε) (nDeps : Nat) : Computed α :=
  iterDepNotify nDeps { cachedValue := g env, isValid := true, getterCalls := 1 }

/-- The returned accessor: cached value if still valid, otherwise one
getter run, cache refresh, and `isValid = true`. -/
def invoke {ε α : Type} (g : ε → α) (env : ε) (c : Computed α) : α × Computed α :=
  if c.isValid then (c.cachedValue, c)
  else
    let v := g env
    (v, { cachedValue := v, isValid := true, getterCalls := c.getterCalls + 1 })

/-! ## The conditional render controller (`when`) -/

/-- DOM mutations performed on the controller's container. -/
inductive DomOp where
  | append : Nat → DomOp
  | remove : Nat → DomOp
deriving DecidableEq, Repr

/-- The controller's private state: the currently mounted node (if any),
the last evaluated condition, the container's children, and a fresh-node
counter standing in for `render()`/`else()` — each call of a branch
returns a brand-new element. -/
structure WhenState where
  currentElement : Option Nat
  currentCondition : Bool
  dom : List Nat
  nextId : Nat
deriving DecidableEq, Repr

/-- `renderElement(shouldRender)`: remove the mounted node if any; produce
a node from `render()` when the condition holds, from `else()` when it
fails and an else branch was supplied (`hasElse`), nothing otherwise;
append the produced node; record the condition.  Also returns the DOM
operations performed. -/
def renderElement (hasElse : Bool) (st : WhenState) (shouldRender : Bool) :
    WhenState × List DomOp :=
  let (dom₁, ops₁) :=
    match st.currentElement with
    | some e => (st.dom.erase e, [DomOp.remove e])
    | none   => (st.dom, ([] : List DomOp))
  let newElement : Option Nat :=
    if shouldRender then some st.nextId
    else if hasElse then some st.nextId
    else none
  match newElement with
  | some n =>
    ({ currentElement := some n, currentCondition := shouldRender,
       dom := dom₁ ++ [n], nextId := st.nextId + 1 },
     ops₁ ++ [DomOp.append n])
  | none =>
    ({ currentElement := none, currentCondition := shouldRender,
       dom := dom₁, nextId := st.nextId },
     ops₁)

/-- The observer `when` registers: re-evaluate the condition on the new
state; re-render only when the boolean differs from the recorded one. -/
def whenNotify (hasElse : Bool) (st : WhenState) (newCondition : Bool) :
    WhenState × List DomOp :=
  if newCondition != st.currentCondition then renderElement hasElse st newCondition
  else (st, [])

/-! ## The keyed list reconciler (`renderList`) -/

/-- One tracked entry of the reconciler's `elementMap`: the rendered
element and the deep snapshot (`structuredClone`) of the item it was
rendered from. -/
structure Entry where
  element : Nat
  data : JVal

/-- The reconciler's state: the key → entry map (`Map`: insertion order,
unique keys), the container's children, and a fresh-node counter standing
in for `itemRenderer` (each call renders a brand-new element). -/
structure RState (κ : Type) where
  elementMap : List (κ × Entry)
  dom : List Nat
  nextId : Nat

variable {κ : Type} [DecidableEq κ]

/-- `elementMap.get(key)`. -/
def mapGet (m : List (κ × Entry)) (k : κ) : Option Entry :=
  (m.find? (fun kv => kv.1 == k)).map Prod.snd

/-- `elementMap.set(key, entry)`: overwrite in place or append. -/
def mapSet : List (κ × Entry) → κ → Entry → List (κ × Entry)
  | [], k, e => [(k, e)]
  | kv :: rest, k, e =>
    if kv.1 == k then (k, e) :: rest else kv :: mapSet rest k e

/-- `container.replaceChild(newE, oldE)`: the new node takes the old
node's position; every other child keeps its position. -/
def replaceChild (dom : List Nat) (newE oldE : Nat) : List Nat :=
  dom.map (fun x => if x = oldE then newE else x)

/-- Processing one item of the current list: skip when the key is tracked
and the item is deep-equal to the snapshot; otherwise render a fresh
element and either replace the tracked node in place or append, then store
the entry with a deep clone of the item. -/
def processItem (getItemKey : JVal → κ) (st : RState κ) (item : JVal) : RState κ :=
  let k := getItemKey item
  match mapGet st.elementMap k with
  | some e =>
    if isDeepEqual item e.data then st
    else
      { elementMap := mapSet st.elementMap k ⟨st.nextId, item⟩,
        dom := replaceChild st.dom st.nextId e.element,
        nextId := st.nextId + 1 }
  | none =>
    { elementMap := mapSet st.elementMap k ⟨st.nextId, item⟩,
      dom := st.dom ++ [st.nextId],
      nextId := st.nextId + 1 }

/-- The `items.forEach` phase of one reconciliation pass. -/
def processItems (getItemKey : JVal → κ) (st : RState κ) (items : List JVal) : RState κ :=
  items.foldl (processItem getItemKey) st

/-- The removal phase: every tracked entry whose key is not among
`currentKeys` has its node removed from the container and its entry
deleted from the map. -/
def removeOrphans (st : RState κ) (currentKeys : List κ) : RState κ :=
  let orphans := st.elementMap.filter (fun kv => !currentKeys.contains kv.1)
  { elementMap := st.elementMap.filter (fun kv => currentKeys.contains kv.1),
    dom := orphans.foldl (fun d kv => d.erase kv.2.element) st.dom,
    nextId := st.nextId }

/-- One full reconciliation pass of `renderList`'s observer: process every
current item (collecting `currentKeys` along the way), then drop orphaned
entries. -/
def reconcile (getItemKey : JVal → κ) (st : RState κ) (items : List JVal) : RState κ :=
  removeOrphans (processItems getItemKey st items) (items.map getItemKey)

/-- Well-formedness of a reconciler state: unique keys, distinct tracked
elements, duplicate-free container children, tracked elements mounted, and
all node identifiers below the fresh counter.  These all hold for the state
reachable from an empty reconciler. -/
structure WF (st : RState κ) : Prop where
  mapKeysNodup : (st.elementMap.map Prod.fst).Nodup
  elemsNodup : (st.elementMap.map (fun kv => kv.2.element)).Nodup
  domNodup : st.dom.Nodup
  elemsInDom : ∀ kv ∈ st.elementMap, kv.2.element ∈ st.dom
  elemsLt : ∀ kv ∈ st.elementMap, kv.2.element < st.nextId
  domLt : ∀ x ∈ st.dom, x < st.nextId

/-! ## The router's route resolution (`renderRoute`) -/

/-- `routes[path]` on the route table, a list of path/component pairs in
declaration order (JavaScript object keys that are non-integer strings keep
insertion order, so `Object.values(routes)[0]` is the first-declared
component).  A component is modelled by the element it renders. -/
def routesGet (routes : List (String × Nat)) (path : String) : Option Nat :=
  (routes.find? (fun kv => kv.1 == path)).map Prod.snd

/-- `routes[path] || routes["/"] || Object.values(routes)[0]` — route
values are functions and therefore always truthy. -/
def resolveRoute (routes : List (String × Nat)) (path : String) : Option Nat :=
  match routesGet routes path with
  | some c => some c
  | none =>
    match routesGet routes "/" with
    | some c => some c
    | none => (routes.map Prod.snd).head?

/-- `renderRoute(path)`: remove every child of the container, then — when
some route resolved — render its component and append the element.  The
result is the container's children afterwards. -/
def renderRoute (routes : List (String × Nat)) (path : String)
    (_container : List Nat) : List Nat :=
  let cleared : List Nat := []
  match resolveRoute routes path with
  | some c => cleared ++ [c]
  | none => cleared

/-! ## Lemmas about the `set` trap -/

/-- In this reference-free model, strictly-equal values are equal. -/
theorem jsStrictEq_eq {a b : JVal} (h : jsStrictEq a b = true) : a = b := by
  cases a <;> cases b <;> simp_all [jsStrictEq]

theorem objGet_cons (kv : String × JVal) (rest : List (String × JVal)) (k : String) :
    objGet (kv :: rest) k = if kv.1 = k then some kv.2 else objGet rest k := by
  by_cases h : kv.1 = k <;> simp [objGet, List.find?_cons, h]

/-- Overwriting a property with the value it already holds leaves the
object unchanged. -/
theorem objSet_self (fields : List (String × JVal)) (k : String) (v : JVal)
    (h : objGet fields k = some v) : objSet fields k v = fields := by
  induction fields with
  | nil => simp [objGet, List.find?] at h
  | cons kv rest ih =>
    obtain ⟨k₀, v₀⟩ := kv
    rw [objGet_cons] at h
    by_cases hk : k₀ = k
    · simp [hk] at h
      simp [objSet, hk, h]
    · simp [hk] at h
      simp [objSet, hk, ih h]

theorem objGet_objSet_self (fields : List (String × JVal)) (k : String) (v : JVal) :
    objGet (objSet fields k v) k = some v := by
  induction fields with
  | nil => simp [objSet, objGet, List.find?]
  | cons kv rest ih =>
    by_cases hk : kv.1 = k
    · simp [objSet, hk, objGet_cons]
    · simp only [objSet, beq_iff_eq, hk, if_false]
      rw [objGet_cons]
      simp [hk, ih]

/-- The `set` trap, characterised against the specification-side
descriptions: it performs exactly the plain path write, and it notifies
exactly when the old value at the path is not strictly equal to the
assigned one. -/
theorem proxySet_spec (path : List String) (v w : JVal) (old : Option JVal)
    (h : pathOldValue v path = some old) :
    ∃ v₁, pathWrite v path w = some v₁ ∧
      proxySet v path w = some (v₁, if jsStrictEqOpt old w then 0 else 1) := by
  induction path generalizing v old with
  | nil => cases v <;> simp [pathOldValue] at h
  | cons k rest ih =>
    cases rest with
    | nil =>
      cases v with
      | jobj fields =>
        simp [pathOldValue] at h
        subst h
        cases hg : objGet fields k with
        | none =>
          simp [pathWrite, proxySet, hg, jsStrictEqOpt]
        | some oldValue =>
          by_cases he : jsStrictEq oldValue w
          · have : oldValue = w := jsStrictEq_eq he
            subst this
            simp [pathWrite, proxySet, hg, he, jsStrictEqOpt,
              objSet_self fields k oldValue hg]
          · simp [pathWrite, proxySet, hg, he, jsStrictEqOpt]
      | jnum a => simp [pathOldValue] at h
      | jstr a => simp [pathOldValue] at h
      | jbool a => simp [pathOldValue] at h
      | jnull => simp [pathOldValue] at h
    | cons r₁ r₂ =>
      cases v with
      | jobj fields =>
        cases hg : objGet fields k with
        | none => simp [pathOldValue, hg] at h
        | some sub =>
          cases sub with
          | jobj subf =>
            have h₁ : pathOldValue (.jobj subf) (r₁ :: r₂) = some old := by
              simpa [pathOldValue, hg] using h
            obtain ⟨v₁, hw, hp⟩ := ih (.jobj subf) old h₁
            refine ⟨.jobj (objSet fields k v₁), ?_, ?_⟩
            · simp [pathWrite, hg, hw]
            · simp [proxySet, hg, hp]
          | jnum a => simp [pathOldValue, hg] at h
          | jstr a => simp [pathOldValue, hg] at h
          | jbool a => simp [pathOldValue, hg] at h
          | jnull => simp [pathOldValue, hg] at h
      | jnum a => simp [pathOldValue] at h
      | jstr a => simp [pathOldValue] at h
      | jbool a => simp [pathOldValue] at h
      | jnull => simp [pathOldValue] at h

/-- After a path write, reading the same path yields the written value. -/
theorem pathWrite_proxyGet (path : List String) (v w v₁ : JVal)
    (h : pathWrite v path w = some v₁) : proxyGet v₁ path = some w := by
  induction path generalizing v v₁ with
  | nil => cases v <;> simp [pathWrite] at h
  | cons k rest ih =>
    cases rest with
    | nil =>
      cases v with
      | jobj fields =>
        simp [pathWrite] at h
        subst h
        simp [proxyGet, objGet_objSet_self]
      | jnum a => simp [pathWrite] at h
      | jstr a => simp [pathWrite] at h
      | jbool a => simp [pathWrite] at h
      | jnull => simp [pathWrite] at h
    | cons r₁ r₂ =>
      cases v with
      | jobj fields =>
        cases hg : objGet fields k with
        | none => simp [pathWrite, hg] at h
        | some sub =>
          cases sub with
          | jobj subf =>
            cases hw : pathWrite (.jobj subf) (r₁ :: r₂) w with
            | none => simp [pathWrite, hg, hw] at h
            | some u =>
              have hv : JVal.jobj (objSet fields k u) = v₁ := by
                simpa [pathWrite, hg, hw] using h
              subst hv
              rw [proxyGet, objGet_objSet_self]
              exact ih (.jobj subf) u hw
          | jnum a => simp [pathWrite, hg] at h
          | jstr a => simp [pathWrite, hg] at h
          | jbool a => simp [pathWrite, hg] at h
          | jnull => simp [pathWrite, hg] at h
      | jnum a => simp [pathWrite] at h
      | jstr a => simp [pathWrite] at h
      | jbool a => simp [pathWrite] at h
      | jnull => simp [pathWrite] at h

/-! ## The state container's observer protocol -/

theorem filter_length_map_pair {α : Type} (l : List Nat) (v : α) (cb : Nat) :
    ((l.map (fun o => (o, v))).filter (fun c => c.1 == cb)).length = l.count cb := by
  induction l with
  | nil => rfl
  | cons a rest ih =>
    by_cases h : a = cb <;> simp [List.count_cons, h, ih]

/-- After registration on a duplicate-free observer set, the callback is
registered exactly once (`Set` semantics). -/
theorem observe_observers_count {α : Type} (s : StateManager α) (cb : Nat)
    (h : s.observers.Nodup) : ((observe s cb).1).observers.count cb = 1 := by
  unfold observe
  by_cases hc : s.observers.contains cb
  · simp only [hc, if_true]
    exact List.count_eq_one_of_mem h (by simpa using hc)
  · simp only [hc, if_false, List.count_append]
    have h₀ : s.observers.count cb = 0 := by
      rw [List.count_eq_zero]
      simpa using hc
    simp [h₀]

theorem observe_observers_nodup {α : Type} (s : StateManager α) (cb : Nat)
    (h : s.observers.Nodup) : ((observe s cb).1).observers.Nodup := by
  unfold observe
  by_cases hc : s.observers.contains cb
  · simp only [hc, if_true]
    exact h
  · simp only [hc, if_false]
    have hm : cb ∉ s.observers := by simpa using hc
    simp [List.nodup_append, h, hm]

/-- C1.  Replay-on-subscribe: `observe(cb)` calls `cb` exactly once,
synchronously before returning, with the current value (the call list is
part of `observe`'s own result); and each committed mutation afterwards — a
property assignment through the reactive handle whose new value is not
strictly equal to the old one — calls `cb` exactly once. -/
theorem observe_replay_then_once_per_mutation (s : StateManager JVal) (cb : Nat)
    (hnodup : s.observers.Nodup)
    (path : List String) (old : Option JVal) (w : JVal)
    (hold : pathOldValue s.value path = some old)
    (hchanged : jsStrictEqOpt old w = false) :
    (observe s cb).2 = [(cb, s.value)] ∧
    ∃ s₁ calls, containerSet (observe s cb).1 path w = some (s₁, calls) ∧
      (calls.filter (fun c => c.1 == cb)).length = 1 := by
  refine ⟨rfl, ?_⟩
  obtain ⟨v₁, hwrite, hproxy⟩ := proxySet_spec path s.value w old hold
  rw [hchanged] at hproxy
  simp only [Bool.false_eq_true, if_false] at hproxy
  have hval : ((observe s cb).1).value = s.value := rfl
  refine ⟨{ (observe s cb).1 with value := v₁ },
    notifyObservers { (observe s cb).1 with value := v₁ }, ?_, ?_⟩
  · simp [containerSet, hval, hproxy]
  · rw [notifyObservers, filter_length_map_pair]
    exact observe_observers_count s cb hnodup

theorem observe_replay_then_once_per_mutation_witness :
    (observe ⟨JVal.jobj [("count", JVal.jnum 0)], []⟩ 0).2 =
      [(0, JVal.jobj [("count", JVal.jnum 0)])] ∧
    ∃ s₁ calls,
      containerSet (observe ⟨JVal.jobj [("count", JVal.jnum 0)], []⟩ 0).1
        ["count"] (JVal.jnum 1) = some (s₁, calls) ∧
      (calls.filter (fun c => c.1 == 0)).length = 1 :=
  observe_replay_then_once_per_mutation
    ⟨JVal.jobj [("count", JVal.jnum 0)], []⟩ 0 (by simp)
    ["count"] (some (JVal.jnum 0)) (JVal.jnum 1) rfl rfl

/-- C2.  Deep reactivity: one nested-property assignment through the
reactive handle, with a value not strictly equal to the current one,
triggers exactly one notification pass (the emitted calls are exactly one
`notifyObservers` pass over the unchanged observer set), and reading the
nested path afterwards returns the new value. -/
theorem deep_reactivity_single_pass (s : StateManager JVal) (path : List String)
    (oldv w : JVal)
    (hold : pathOldValue s.value path = some (some oldv))
    (hne : jsStrictEq oldv w = false) :
    ∃ s₁, containerSet s path w = some (s₁, notifyObservers s₁) ∧
      proxyGet s₁.value path = some w ∧
      s₁.observers = s.observers := by
  obtain ⟨v₁, hwrite, hproxy⟩ := proxySet_spec path s.value w (some oldv) hold
  rw [show jsStrictEqOpt (some oldv) w = false from hne] at hproxy
  simp only [Bool.false_eq_true, if_false] at hproxy
  refine ⟨{ s with value := v₁ }, ?_, ?_, rfl⟩
  · simp [containerSet, hproxy]
  · exact pathWrite_proxyGet path s.value w v₁ hwrite

theorem deep_reactivity_single_pass_witness :
    ∃ s₁, containerSet ⟨JVal.jobj [("a", JVal.jobj [("b", JVal.jnum 1)])], [0]⟩
        ["a", "b"] (JVal.jnum 2) = some (s₁, notifyObservers s₁) ∧
      proxyGet s₁.value ["a", "b"] = some (JVal.jnum 2) ∧
      s₁.observers = [0] :=
  deep_reactivity_single_pass
    ⟨JVal.jobj [("a", JVal.jobj [("b", JVal.jnum 1)])], [0]⟩
    ["a", "b"] (JVal.jnum 1) (JVal.jnum 2) rfl rfl

/-- C3 counterexample: assigning a strictly-equal value through the
reactive handle triggers zero notification passes, not one — the `set`
trap's `if (oldValue !== value)` short-circuits.  Here the container
`{x: 1}` with one registered observer receives the assignment `x = 1` and
no observer call happens. -/
theorem write_equal_value_no_notification :
    containerSet ⟨JVal.jobj [("x", JVal.jnum 1)], [0]⟩ ["x"] (JVal.jnum 1) =
      some (⟨JVal.jobj [("x", JVal.jnum 1)], [0]⟩, []) ∧
    ([] : List (Nat × JVal)) ≠ [(0, JVal.jobj [("x", JVal.jnum 1)])] := by
  exact ⟨rfl, by simp⟩

/-- C3 (amended).  A property assignment through the reactive handle
triggers exactly one notification pass when the new value is not strictly
equal to the old one, and zero passes when it is strictly equal. -/
theorem write_notification_iff_changed (s : StateManager JVal) (path : List String)
    (old : Option JVal) (w : JVal)
    (hold : pathOldValue s.value path = some old) :
    ∃ s₁, containerSet s path w =
        some (s₁, if jsStrictEqOpt old w then [] else notifyObservers s₁) ∧
      s₁.observers = s.observers := by
  obtain ⟨v₁, hwrite, hproxy⟩ := proxySet_spec path s.value w old hold
  refine ⟨{ s with value := v₁ }, ?_, rfl⟩
  by_cases he : jsStrictEqOpt old w
  · rw [he] at hproxy
    simp only [if_true] at hproxy
    simp [containerSet, hproxy, he]
  · rw [show jsStrictEqOpt old w = false by simpa using he] at hproxy
    simp only [Bool.false_eq_true, if_false] at hproxy
    simp [containerSet, hproxy, he]

theorem write_notification_iff_changed_witness :
    ∃ s₁, containerSet ⟨JVal.jobj [("x", JVal.jnum 1)], [0]⟩ ["x"] (JVal.jnum 1) =
        some (s₁, if jsStrictEqOpt (some (JVal.jnum 1)) (JVal.jnum 1)
                  then [] else notifyObservers s₁) ∧
      s₁.observers = [0] :=
  write_notification_iff_changed ⟨JVal.jobj [("x", JVal.jnum 1)], [0]⟩ ["x"]
    (some (JVal.jnum 1)) (JVal.jnum 1) rfl

/-! ## `update` on the deep-reactive container -/

/-- C4 counterexample: an updater that performs one intercepted nested
write assigning a strictly-equal value triggers zero notifications, not the
one notification per intercepted write the claim promises: on `{x: 1}` with
one observer, `update(s => { s.x = 1 })` emits no observer call. -/
theorem update_equal_write_no_notification :
    containerUpdate ⟨JVal.jobj [("x", JVal.jnum 1)], [0]⟩ [(["x"], JVal.jnum 1)] =
      some (⟨JVal.jobj [("x", JVal.jnum 1)], [0]⟩, []) ∧
    ([] : List (Nat × JVal)).length = 0 ∧ (0 : Nat) ≠ 1 := by
  exact ⟨rfl, rfl, by decide⟩

/-- C4 (amended).  `update(fn)` hands `fn` the live value and commits
exactly `fn`'s mutations: afterwards the stored value is the sequential
application of `fn`'s writes (the value `fn` produced), with one
notification pass per intercepted nested write whose value is not strictly
equal to the previous one (and none for writes of a strictly-equal
value). -/
theorem update_applies_script (s : StateManager JVal)
    (script : List (List String × JVal)) (cb : Nat)
    (hcb : s.observers.count cb = 1)
    (m : Nat) (hm : changedWriteCount s.value script = some m) :
    ∃ s₁ calls, containerUpdate s script = some (s₁, calls) ∧
      applyScript s.value script = some s₁.value ∧
      s₁.observers = s.observers ∧
      (calls.filter (fun c => c.1 == cb)).length = m := by
  induction script generalizing s m with
  | nil =>
    refine ⟨s, [], rfl, rfl, rfl, ?_⟩
    simp [changedWriteCount] at hm
    simp [hm]
  | cons pw rest ih =>
    obtain ⟨path, w⟩ := pw
    cases hov : pathOldValue s.value path with
    | none => simp [changedWriteCount, hov] at hm
    | some old =>
      obtain ⟨v₁, hwrite, hproxy⟩ := proxySet_spec path s.value w old hov
      cases hcnt : changedWriteCount v₁ rest with
      | none => simp [changedWriteCount, hov, hwrite, hcnt] at hm
      | some n =>
        have hcb₁ : ({ s with value := v₁ } : StateManager JVal).observers.count cb = 1 :=
          hcb
        obtain ⟨s₂, calls₂, hupd, happly, hobs, hlen⟩ :=
          ih { s with value := v₁ } hcb₁ n hcnt
        by_cases he : jsStrictEqOpt old w
        · rw [he] at hproxy
          simp only [if_true] at hproxy
          have hm0 : m = n := by
            simp [changedWriteCount, hov, hwrite, hcnt, he] at hm
            omega
          refine ⟨s₂, [] ++ calls₂, ?_, ?_, hobs, ?_⟩
          · simp [containerUpdate, containerSet, hproxy, hupd]
          · simpa [applyScript, hwrite] using happly
          · simpa [hm0] using hlen
        · have he₀ : jsStrictEqOpt old w = false := by simpa using he
          rw [he₀] at hproxy
          simp only [Bool.false_eq_true, if_false] at hproxy
          have hm1 : m = 1 + n := by
            simp [changedWriteCount, hov, hwrite, hcnt, he₀] at hm
            omega
          refine ⟨s₂, notifyObservers { s with value := v₁ } ++ calls₂, ?_, ?_, hobs, ?_⟩
          · simp [containerUpdate, containerSet, hproxy, hupd]
          · simpa [applyScript, hwrite] using happly
          · rw [List.filter_append, List.length_append, hlen, hm1,
              notifyObservers, filter_length_map_pair]
            simp [hcb]

theorem update_applies_script_witness :
    ∃ s₁ calls,
      containerUpdate ⟨JVal.jobj [("count", JVal.jnum 0)], [7]⟩
        [(["count"], JVal.jnum 1)] = some (s₁, calls) ∧
      applyScript (JVal.jobj [("count", JVal.jnum 0)]) [(["count"], JVal.jnum 1)] =
        some s₁.value ∧
      s₁.observers = [7] ∧
      (calls.filter (fun c => c.1 == 7)).length = 1 :=
  update_applies_script ⟨JVal.jobj [("count", JVal.jnum 0)], [7]⟩
    [(["count"], JVal.jnum 1)] 7 (by decide)
    1 rfl

/-! ## Lemmas about the computed cache -/

theorem depNotify_cachedValue {α : Type} (c : Computed α) :
    (depNotify c).cachedValue = c.cachedValue := rfl

theorem iterDepNotify_succ_eq {α : Type} (n : Nat) (c : Computed α) :
    iterDepNotify (n + 1) c = { c with isValid := false } := by
  induction n generalizing c with
  | zero => rfl
  | succ m ih =>
    show iterDepNotify (m + 1) (depNotify c) = _
    rw [ih (depNotify c)]
    simp [depNotify]

/-- C5.  Computed coalescing: any number (two or more) of dependency
notifications between two consecutive accessor calls cause exactly one
getter run at the second call (`getterCalls` grows by one, not by one per
notification), and an accessor call with a still-valid cache returns the
cached value with no getter run at all. -/
theorem computed_coalescing {ε α : Type} (g : ε → α) (env : ε) (c : Computed α)
    (hvalid : c.isValid = true) (n : Nat) (hn : 2 ≤ n) :
    (invoke g env (iterDepNotify n c)).2.getterCalls = c.getterCalls + 1 ∧
    (invoke g env (iterDepNotify n c)).2.isValid = true ∧
    invoke g env c = (c.cachedValue, c) := by
  obtain ⟨m, rfl⟩ : ∃ m, n = m + 1 := ⟨n - 1, by omega⟩
  rw [iterDepNotify_succ_eq]
  simp [invoke, hvalid]

theorem computed_coalescing_witness :
    ((2 : Nat) ≤ 5) ∧
    (invoke (fun x : Nat => x + 1) 7
        (iterDepNotify 5 ⟨8, true, 3⟩)).2.getterCalls = 3 + 1 ∧
    invoke (fun x : Nat => x + 1) 7 (⟨8, true, 3⟩ : Computed Nat) = (8, ⟨8, true, 3⟩) := by
  have h := computed_coalescing (fun x : Nat => x + 1) 7 ⟨8, true, 3⟩ rfl 5 (by decide)
  exact ⟨by decide, h.1, h.2.2⟩

/-- C10.  Immediately after `computed(getter, deps)` returns with at least
one dependency, the cache is already invalid — each `observe` call runs the
invalidating observer synchronously at registration — so the first accessor
call re-runs the getter (a second getter run) even though no dependency
changed since construction. -/
theorem computed_first_invoke_recomputes {ε α : Type} (g : ε → α) (env : ε)
    (n : Nat) (hn : 1 ≤ n) :
    (computedInit g env n).isValid = false ∧
    (computedInit g env n).getterCalls = 1 ∧
    (invoke g env (computedInit g env n)).2.getterCalls = 2 := by
  obtain ⟨m, rfl⟩ : ∃ m, n = m + 1 := ⟨n - 1, by omega⟩
  rw [computedInit, iterDepNotify_succ_eq]
  simp [invoke]

theorem computed_first_invoke_recomputes_witness :
    ((1 : Nat) ≤ 1) ∧
    (computedInit (fun x : Nat => x * 2) 21 1).isValid = false ∧
    (invoke (fun x : Nat => x * 2) 21 (computedInit (fun x : Nat => x * 2) 21 1)).2.getterCalls = 2 := by
  have h := computed_first_invoke_recomputes (fun x : Nat => x * 2) 21 1 (by decide)
  exact ⟨by decide, h.1, h.2.2⟩

/-! ## The router's missing-route fallback -/

/-- C9.  Route resolution falls back: a path with no entry renders the
component registered for `"/"`; with `"/"` also absent, the first-declared
route's component; an empty route table mounts nothing. -/
theorem router_missing_route_fallback (routes : List (String × Nat))
    (path : String) (container : List Nat) :
    (∀ c, routesGet routes path = none → routesGet routes "/" = some c →
      renderRoute routes path container = [c]) ∧
    (∀ p₀ c₀ rest, routesGet routes path = none → routesGet routes "/" = none →
      routes = (p₀, c₀) :: rest → renderRoute routes path container = [c₀]) ∧
    (routes = [] → renderRoute routes path container = []) := by
  refine ⟨?_, ?_, ?_⟩
  · intro c h₁ h₂
    simp [renderRoute, resolveRoute, h₁, h₂]
  · intro p₀ c₀ rest h₁ h₂ h₃
    subst h₃
    simp [renderRoute, resolveRoute, h₁, h₂]
  · intro h
    subst h
    simp [renderRoute, resolveRoute, routesGet]

theorem router_missing_route_fallback_witness :
    renderRoute [("/", 10), ("/about", 11)] "/missing" [5, 6] = [10] ∧
    renderRoute [("/home", 20), ("/about", 21)] "/missing" [] = [20] ∧
    renderRoute [] "/missing" [7] = [] := by
  refine ⟨?_, ?_, ?_⟩
  · exact (router_missing_route_fallback [("/", 10), ("/about", 11)] "/missing" [5, 6]).1
      10 (by decide) (by decide)
  · exact (router_missing_route_fallback [("/home", 20), ("/about", 21)] "/missing" []).2.1
      "/home" 20 [("/about", 21)] (by decide) (by decide) rfl
  · exact (router_missing_route_fallback [] "/missing" [7]).2.2 rfl

/-! ## The conditional render controller -/

/-- A notification whose boolean matches the recorded one is a no-op. -/
theorem whenNotify_same (hasElse : Bool) (st : WhenState) (b : Bool)
    (h : st.currentCondition = b) : whenNotify hasElse st b = (st, []) := by
  simp [whenNotify, h]

/-- C8.  Conditional idempotence: a notification whose predicate evaluates
to the recorded boolean performs no DOM mutation at all; one whose boolean
differs removes the mounted node (if any) and appends the new branch's node
(when the branch produces one), and a second notification with the same
boolean right after is a no-op — one transition, not two. -/
theorem when_conditional_idempotence (hasElse : Bool) (st : WhenState) (b : Bool) :
    (b = st.currentCondition → whenNotify hasElse st b = (st, [])) ∧
    (b ≠ st.currentCondition →
      (whenNotify hasElse st b).1.currentCondition = b ∧
      (whenNotify hasElse st b).2 =
        ((match st.currentElement with
          | some e => [DomOp.remove e]
          | none => []) ++
         (if b || hasElse then [DomOp.append st.nextId] else [])) ∧
      whenNotify hasElse (whenNotify hasElse st b).1 b = ((whenNotify hasElse st b).1, [])) := by
  constructor
  · intro h
    simp [whenNotify, h]
  · intro h
    have hb : (b != st.currentCondition) = true := by
      simp [bne_iff_ne]
      exact h
    have hcond : (renderElement hasElse st b).1.currentCondition = b := by
      unfold renderElement
      rcases st.currentElement with _ | e <;> cases b <;> cases hasElse <;> simp
    refine ⟨?_, ?_, ?_⟩
    · simpa [whenNotify, hb] using hcond
    · simp only [whenNotify, hb, if_true]
      unfold renderElement
      rcases st.currentElement with _ | e <;> cases b <;> cases hasElse <;> simp
    · have hc : (whenNotify hasElse st b).1.currentCondition = b := by
        simpa [whenNotify, hb] using hcond
      exact whenNotify_same hasElse (whenNotify hasElse st b).1 b hc

theorem when_conditional_idempotence_witness :
    whenNotify true ⟨some 3, true, [3], 4⟩ true = (⟨some 3, true, [3], 4⟩, []) ∧
    (whenNotify true ⟨some 3, true, [3], 4⟩ false).2 =
      [DomOp.remove 3, DomOp.append 4] ∧
    whenNotify true (whenNotify true ⟨some 3, true, [3], 4⟩ false).1 false =
      ((whenNotify true ⟨some 3, true, [3], 4⟩ false).1, []) := by
  have h₁ := (when_conditional_idempotence true ⟨some 3, true, [3], 4⟩ true).1 rfl
  have h₂ := (when_conditional_idempotence true ⟨some 3, true, [3], 4⟩ false).2 (by decide)
  exact ⟨h₁, h₂.2.1, h₂.2.2⟩

/-! ## Lemmas about the reconciler's key → entry map -/

theorem mapGet_cons (kv : κ × Entry) (rest : List (κ × Entry)) (k : κ) :
    mapGet (kv :: rest) k = if kv.1 = k then some kv.2 else mapGet rest k := by
  by_cases h : kv.1 = k <;> simp [mapGet, List.find?_cons, h]

theorem mapGet_set_self (m : List (κ × Entry)) (k : κ) (e : Entry) :
    mapGet (mapSet m k e) k = some e := by
  induction m with
  | nil => simp [mapSet, mapGet, List.find?]
  | cons kv rest ih =>
    by_cases hk : kv.1 = k
    · simp [mapSet, hk, mapGet_cons]
    · simp only [mapSet, beq_iff_eq, hk, if_false]
      rw [mapGet_cons]
      simp [hk, ih]

theorem mapGet_set_other (m : List (κ × Entry)) (k k' : κ) (e : Entry)
    (h : k' ≠ k) : mapGet (mapSet m k e) k' = mapGet m k' := by
  induction m with
  | nil =>
    rw [mapSet, mapGet_cons]
    simp [Ne.symm h]
  | cons kv rest ih =>
    by_cases hk : kv.1 = k
    · rw [mapSet]
      simp only [beq_iff_eq, hk, if_true]
      rw [mapGet_cons, mapGet_cons]
      simp [hk, Ne.symm h]
    · rw [mapSet]
      simp only [beq_iff_eq, hk, if_false]
      rw [mapGet_cons, mapGet_cons, ih]

theorem mem_keys_mapSet (m : List (κ × Entry)) (k k' : κ) (e : Entry) :
    k' ∈ (mapSet m k e).map Prod.fst ↔ k' ∈ m.map Prod.fst ∨ k' = k := by
  induction m with
  | nil => simp [mapSet]
  | cons kv rest ih =>
    by_cases hk : kv.1 = k
    · simp only [mapSet, beq_iff_eq, hk, if_true, List.map_cons, List.mem_cons, hk]
      tauto
    · simp only [mapSet, beq_iff_eq, hk, if_false, List.map_cons, List.mem_cons, ih]
      tauto

theorem keys_nodup_mapSet (m : List (κ × Entry)) (k : κ) (e : Entry)
    (h : (m.map Prod.fst).Nodup) : ((mapSet m k e).map Prod.fst).Nodup := by
  induction m with
  | nil => simp [mapSet]
  | cons kv rest ih =>
    simp only [List.map_cons, List.nodup_cons] at h
    by_cases hk : kv.1 = k
    · simp only [mapSet, beq_iff_eq, hk, if_true, List.map_cons, List.nodup_cons]
      exact ⟨hk ▸ h.1, h.2⟩
    · simp only [mapSet, beq_iff_eq, hk, if_false, List.map_cons, List.nodup_cons]
      refine ⟨?_, ih h.2⟩
      rw [mem_keys_mapSet]
      rintro (hmem | hmem)
      · exact h.1 hmem
      · exact hk hmem

theorem mem_mapSet (m : List (κ × Entry)) (k : κ) (e : Entry) (kv' : κ × Entry)
    (h : kv' ∈ mapSet m k e) : kv' ∈ m ∨ kv' = (k, e) := by
  induction m with
  | nil =>
    simp only [mapSet, List.mem_singleton] at h
    exact Or.inr h
  | cons kv rest ih =>
    by_cases hk : kv.1 = k
    · simp only [mapSet, beq_iff_eq, hk, if_true] at h
      rcases List.mem_cons.mp h with h | h
      · exact Or.inr h
      · exact Or.inl (List.mem_cons_of_mem _ h)
    · simp only [mapSet, beq_iff_eq, hk, if_false] at h
      rcases List.mem_cons.mp h with h | h
      · exact Or.inl (h ▸ List.mem_cons_self _ _)
      · rcases ih h with h | h
        · exact Or.inl (List.mem_cons_of_mem _ h)
        · exact Or.inr h

theorem mapSet_key_val (m : List (κ × Entry)) (k : κ) (e : Entry)
    (hnodup : (m.map Prod.fst).Nodup) (kv' : κ × Entry)
    (h : kv' ∈ mapSet m k e) (hkey : kv'.1 = k) : kv'.2 = e := by
  induction m with
  | nil =>
    simp only [mapSet, List.mem_singleton] at h
    simp [h]
  | cons kv rest ih =>
    simp only [List.map_cons, List.nodup_cons] at hnodup
    by_cases hk : kv.1 = k
    · simp only [mapSet, beq_iff_eq, hk, if_true] at h
      rcases List.mem_cons.mp h with h | h
      · simp [h]
      · exfalso
        have : kv'.1 ∈ rest.map Prod.fst := List.mem_map_of_mem _ h
        rw [hkey, ← hk] at this
        exact hnodup.1 this
    · simp only [mapSet, beq_iff_eq, hk, if_false] at h
      rcases List.mem_cons.mp h with h | h
      · exact absurd (h ▸ hkey : kv.1 = k) hk
      · exact ih hnodup.2 h

theorem mapGet_mem (m : List (κ × Entry)) (k : κ) (e : Entry)
    (h : mapGet m k = some e) : (k, e) ∈ m := by
  induction m with
  | nil => simp [mapGet, List.find?] at h
  | cons kv rest ih =>
    rw [mapGet_cons] at h
    by_cases hk : kv.1 = k
    · simp only [hk, if_true, Option.some_inj] at h
      have he : (k, e) = kv := by rw [← hk, ← h]
      simp [he]
    · simp only [hk, if_false] at h
      exact List.mem_cons_of_mem _ (ih h)

theorem mapGet_none_iff (m : List (κ × Entry)) (k : κ) :
    mapGet m k = none ↔ k ∉ m.map Prod.fst := by
  induction m with
  | nil => simp [mapGet, List.find?]
  | cons kv rest ih =>
    rw [mapGet_cons]
    by_cases hk : kv.1 = k
    · simp [hk]
    · simp only [hk, if_false, ih, List.map_cons, List.mem_cons]
      constructor
      · intro h hmem
        rcases hmem with h₁ | h₁
        · exact hk h₁.symm
        · exact h h₁
      · intro h hmem
        exact h (Or.inr hmem)

theorem mapGet_isSome_of_mem_keys (m : List (κ × Entry)) (k : κ)
    (h : k ∈ m.map Prod.fst) : ∃ e, mapGet m k = some e := by
  cases hg : mapGet m k with
  | none => exact absurd h ((mapGet_none_iff m k).mp hg)
  | some e => exact ⟨e, rfl⟩

theorem mem_mapGet (m : List (κ × Entry)) (k : κ) (e : Entry)
    (hnodup : (m.map Prod.fst).Nodup) (h : (k, e) ∈ m) : mapGet m k = some e := by
  induction m with
  | nil => simp at h
  | cons kv rest ih =>
    simp only [List.map_cons, List.nodup_cons] at hnodup
    rw [mapGet_cons]
    rcases List.mem_cons.mp h with h | h
    · simp [← h]
    · have hk : kv.1 ≠ k := by
        intro he
        exact hnodup.1 (he ▸ List.mem_map_of_mem Prod.fst h)
      simp [hk, ih hnodup.2 h]

theorem elems_mapSet_subset (m : List (κ × Entry)) (k : κ) (e : Entry) (x : Nat)
    (h : x ∈ (mapSet m k e).map (fun kv => kv.2.element)) :
    x ∈ m.map (fun kv => kv.2.element) ∨ x = e.element := by
  rcases List.mem_map.mp h with ⟨kv', hmem, hx⟩
  rcases mem_mapSet m k e kv' hmem with h' | h'
  · exact Or.inl (hx ▸ List.mem_map_of_mem _ h')
  · subst h'
    exact Or.inr hx.symm

theorem elems_nodup_mapSet (m : List (κ × Entry)) (k : κ) (e : Entry)
    (hnodup : (m.map (fun kv => kv.2.element)).Nodup)
    (hfresh : e.element ∉ m.map (fun kv => kv.2.element)) :
    ((mapSet m k e).map (fun kv => kv.2.element)).Nodup := by
  induction m with
  | nil => simp [mapSet]
  | cons kv rest ih =>
    simp only [List.map_cons, List.nodup_cons] at hnodup
    simp only [List.map_cons, List.mem_cons] at hfresh
    push_neg at hfresh
    by_cases hk : kv.1 = k
    · simp only [mapSet, beq_iff_eq, hk, if_true, List.map_cons, List.nodup_cons]
      exact ⟨hfresh.2, hnodup.2⟩
    · simp only [mapSet, beq_iff_eq, hk, if_false, List.map_cons, List.nodup_cons]
      refine ⟨?_, ih hnodup.2 hfresh.2⟩
      intro hmem
      rcases elems_mapSet_subset rest k e _ hmem with h' | h'
      · exact hnodup.1 h'
      · exact hfresh.1 h'.symm

/-! ## Lemmas about `replaceChild` -/

theorem mem_replaceChild (dom : List Nat) (n old y : Nat) :
    y ∈ replaceChild dom n old ↔ ∃ x ∈ dom, y = if x = old then n else x := by
  simp [replaceChild, List.mem_map, eq_comm]

theorem replaceChild_mem_new (dom : List Nat) (n old : Nat) (h : old ∈ dom) :
    n ∈ replaceChild dom n old := by
  rw [mem_replaceChild]
  exact ⟨old, h, by simp⟩

theorem replaceChild_mem_other (dom : List Nat) (n old x : Nat)
    (hx : x ∈ dom) (hne : x ≠ old) : x ∈ replaceChild dom n old := by
  rw [mem_replaceChild]
  exact ⟨x, hx, by simp [hne]⟩

theorem replaceChild_not_mem_old (dom : List Nat) (n old : Nat) (h : n ≠ old) :
    old ∉ replaceChild dom n old := by
  rw [mem_replaceChild]
  rintro ⟨x, _, hx⟩
  by_cases hxo : x = old
  · simp [hxo] at hx
    exact h hx.symm
  · simp [hxo] at hx
    exact hxo hx.symm

theorem replaceChild_mem_subset (dom : List Nat) (n old y : Nat)
    (h : y ∈ replaceChild dom n old) : y ∈ dom ∨ y = n := by
  rw [mem_replaceChild] at h
  rcases h with ⟨x, hx, hy⟩
  by_cases hxo : x = old
  · simp [hxo] at hy
    exact Or.inr hy
  · simp [hxo] at hy
    exact Or.inl (hy ▸ hx)

theorem replaceChild_id (dom : List Nat) (n old : Nat) (h : old ∉ dom) :
    replaceChild dom n old = dom := by
  induction dom with
  | nil => rfl
  | cons a rest ih =>
    simp only [List.mem_cons] at h
    push_neg at h
    show (if a = old then n else a) :: replaceChild rest n old = a :: rest
    rw [if_neg (Ne.symm h.1), ih h.2]

theorem replaceChild_nodup (dom : List Nat) (n old : Nat)
    (hnodup : dom.Nodup) (hn : n ∉ dom) : (replaceChild dom n old).Nodup := by
  induction dom with
  | nil => simp [replaceChild]
  | cons a rest ih =>
    simp only [List.nodup_cons] at hnodup
    simp only [List.mem_cons] at hn
    push_neg at hn
    simp only [replaceChild, List.map_cons, List.nodup_cons]
    rw [show (rest.map (fun x => if x = old then n else x)) = replaceChild rest n old
      from rfl]
    refine ⟨?_, ih hnodup.2 hn.2⟩
    by_cases hao : a = old
    · simp only [hao, if_true]
      rw [show replaceChild rest n old = rest from replaceChild_id rest n old
        (hao ▸ hnodup.1)]
      exact hn.2
    · simp only [hao, if_false]
      intro hmem
      rcases replaceChild_mem_subset rest n old a hmem with h | h
      · exact hnodup.1 h
      · exact hn.1 h.symm

theorem replaceChild_getElem? (dom : List Nat) (n old : Nat) (i : Nat) :
    (replaceChild dom n old)[i]? = (dom[i]?).map (fun x => if x = old then n else x) := by
  simp [replaceChild]

/-! ## One reconciliation step -/

theorem WF_processItem (g : JVal → κ) (st : RState κ) (item : JVal)
    (h : WF st) : WF (processItem g st item) := by
  obtain ⟨h₁, h₂, h₃, h₄, h₅, h₆⟩ := h
  rw [processItem]
  cases hget : mapGet st.elementMap (g item) with
  | some e =>
    by_cases hde : isDeepEqual item e.data
    · simp only [hde, if_true]
      exact ⟨h₁, h₂, h₃, h₄, h₅, h₆⟩
    · simp only [hde, Bool.false_eq_true, if_false]
      have hfresh : st.nextId ∉ st.elementMap.map (fun kv => kv.2.element) := by
        intro hmem
        rcases List.mem_map.mp hmem with ⟨kv, hkv, hx⟩
        exact absurd (hx ▸ h₅ kv hkv) (lt_irrefl _)
      have holdmem : e.element ∈ st.dom := h₄ _ (mapGet_mem _ _ _ hget)
      have hnid : st.nextId ∉ st.dom := fun hmem => absurd (h₆ _ hmem) (lt_irrefl _)
      refine ⟨keys_nodup_mapSet _ _ _ h₁, elems_nodup_mapSet _ _ _ h₂ hfresh,
        replaceChild_nodup _ _ _ h₃ hnid, ?_, ?_, ?_⟩
      · intro kv hkv
        rcases mem_mapSet _ _ _ _ hkv with hin | hin
        · by_cases hxe : kv.2.element = e.element
          · -- only the tracked entry for this key holds this element
            have hkveq : kv = (g item, e) := by
              have hmem₂ : (g item, e) ∈ st.elementMap := mapGet_mem _ _ _ hget
              exact List.inj_on_of_nodup_map h₂ hin hmem₂ hxe
            have : kv.2 = (⟨st.nextId, item⟩ : Entry) :=
              mapSet_key_val _ _ _ h₁ kv hkv (by rw [hkveq])
            rw [this]
            exact replaceChild_mem_new _ _ _ holdmem
          · exact replaceChild_mem_other _ _ _ _ (h₄ kv hin) hxe
        · rw [hin]
          exact replaceChild_mem_new _ _ _ holdmem
      · intro kv hkv
        rcases mem_mapSet _ _ _ _ hkv with hin | hin
        · exact Nat.lt_succ_of_lt (h₅ kv hin)
        · rw [hin]
          exact Nat.lt_succ_self _
      · intro x hx
        rcases replaceChild_mem_subset _ _ _ _ hx with hin | hin
        · exact Nat.lt_succ_of_lt (h₆ x hin)
        · rw [hin]
          exact Nat.lt_succ_self _
  | none =>
    have hfresh : st.nextId ∉ st.elementMap.map (fun kv => kv.2.element) := by
      intro hmem
      rcases List.mem_map.mp hmem with ⟨kv, hkv, hx⟩
      exact absurd (hx ▸ h₅ kv hkv) (lt_irrefl _)
    have hnid : st.nextId ∉ st.dom := fun hmem => absurd (h₆ _ hmem) (lt_irrefl _)
    refine ⟨keys_nodup_mapSet _ _ _ h₁, elems_nodup_mapSet _ _ _ h₂ hfresh, ?_, ?_, ?_, ?_⟩
    · simp [List.nodup_append, h₃, hnid]
    · intro kv hkv
      rcases mem_mapSet _ _ _ _ hkv with hin | hin
      · exact List.mem_append_left _ (h₄ kv hin)
      · rw [hin]
        simp
    · intro kv hkv
      rcases mem_mapSet _ _ _ _ hkv with hin | hin
      · exact Nat.lt_succ_of_lt (h₅ kv hin)
      · rw [hin]
        exact Nat.lt_succ_self _
    · intro x hx
      rcases List.mem_append.mp hx with hin | hin
      · exact Nat.lt_succ_of_lt (h₆ x hin)
      · simp at hin
        rw [hin]
        exact Nat.lt_succ_self _

theorem processItem_nextId_le (g : JVal → κ) (st : RState κ) (item : JVal) :
    st.nextId ≤ (processItem g st item).nextId := by
  rw [processItem]
  cases hget : mapGet st.elementMap (g item) with
  | some e =>
    by_cases hde : isDeepEqual item e.data
    · simp [hde]
    · simp [hde]
  | none => simp

theorem processItem_mapGet_other (g : JVal → κ) (st : RState κ) (item : JVal)
    (k : κ) (hne : k ≠ g item) :
    mapGet (processItem g st item).elementMap k = mapGet st.elementMap k := by
  rw [processItem]
  cases hget : mapGet st.elementMap (g item) with
  | some e =>
    by_cases hde : isDeepEqual item e.data
    · simp [hde]
    · simp only [hde, Bool.false_eq_true, if_false]
      exact mapGet_set_other _ _ _ _ hne
  | none =>
    exact mapGet_set_other _ _ _ _ hne

theorem processItem_dom_preserved (g : JVal → κ) (st : RState κ) (item : JVal)
    (hwf : WF st) (k : κ) (e : Entry)
    (hget : mapGet st.elementMap k = some e) (hne : k ≠ g item) (i : Nat)
    (hi : st.dom[i]? = some e.element) :
    (processItem g st item).dom[i]? = some e.element := by
  rw [processItem]
  cases hget₂ : mapGet st.elementMap (g item) with
  | some e₂ =>
    by_cases hde : isDeepEqual item e₂.data
    · simpa [hde] using hi
    · simp only [hde, Bool.false_eq_true, if_false]
      have hne₂ : e.element ≠ e₂.element := by
        intro heq
        have hm₁ : (k, e) ∈ st.elementMap := mapGet_mem _ _ _ hget
        have hm₂ : (g item, e₂) ∈ st.elementMap := mapGet_mem _ _ _ hget₂
        have := List.inj_on_of_nodup_map hwf.elemsNodup hm₁ hm₂ heq
        exact hne (congrArg Prod.fst this)
      rw [replaceChild_getElem?, hi]
      simp [hne₂]
  | none =>
    have hlen : i < st.dom.length := by
      by_contra hge
      rw [List.getElem?_eq_none (Nat.le_of_not_lt hge)] at hi
      exact Option.noConfusion hi
    simpa [List.getElem?_append_left hlen] using hi

theorem processItem_not_mem_dom (g : JVal → κ) (st : RState κ) (item : JVal)
    (x : Nat) (hlt : x < st.nextId) (hx : x ∉ st.dom) :
    x ∉ (processItem g st item).dom := by
  rw [processItem]
  cases hget : mapGet st.elementMap (g item) with
  | some e =>
    by_cases hde : isDeepEqual item e.data
    · simpa [hde] using hx
    · simp only [hde, Bool.false_eq_true, if_false]
      intro hmem
      rcases replaceChild_mem_subset _ _ _ _ hmem with h | h
      · exact hx h
      · exact absurd (h ▸ hlt) (lt_irrefl _)
  | none =>
    intro hmem
    rcases List.mem_append.mp hmem with h | h
    · exact hx h
    · simp at h
      exact absurd (h ▸ hlt) (lt_irrefl _)

theorem processItem_mem_keys (g : JVal → κ) (st : RState κ) (item : JVal) (k : κ) :
    k ∈ (processItem g st item).elementMap.map Prod.fst ↔
      k ∈ st.elementMap.map Prod.fst ∨ k = g item := by
  rw [processItem]
  cases hget : mapGet st.elementMap (g item) with
  | some e =>
    by_cases hde : isDeepEqual item e.data
    · simp only [hde, if_true]
      constructor
      · exact fun h => Or.inl h
      · rintro (h | h)
        · exact h
        · rw [h]
          exact List.mem_map_of_mem Prod.fst (mapGet_mem _ _ _ hget)
    · simp only [hde, Bool.false_eq_true, if_false]
      exact mem_keys_mapSet _ _ _ _
  | none =>
    exact mem_keys_mapSet _ _ _ _

/-! ## The `items.forEach` phase as a whole -/

theorem WF_processItems (g : JVal → κ) (st : RState κ) (items : List JVal)
    (h : WF st) : WF (processItems g st items) := by
  induction items generalizing st with
  | nil => exact h
  | cons item rest ih => exact ih _ (WF_processItem g st item h)

theorem processItems_nextId_le (g : JVal → κ) (st : RState κ) (items : List JVal) :
    st.nextId ≤ (processItems g st items).nextId := by
  induction items generalizing st with
  | nil => exact le_refl _
  | cons item rest ih =>
    exact le_trans (processItem_nextId_le g st item) (ih (processItem g st item))

theorem processItems_mapGet_other (g : JVal → κ) (st : RState κ) (items : List JVal)
    (k : κ) (hk : k ∉ items.map g) :
    mapGet (processItems g st items).elementMap k = mapGet st.elementMap k := by
  induction items generalizing st with
  | nil => rfl
  | cons item rest ih =>
    simp only [List.map_cons, List.mem_cons] at hk
    push_neg at hk
    rw [show processItems g st (item :: rest) = processItems g (processItem g st item) rest
      from rfl]
    rw [ih (processItem g st item) hk.2]
    exact processItem_mapGet_other g st item k hk.1

theorem processItems_dom_preserved (g : JVal → κ) (st : RState κ) (items : List JVal)
    (hwf : WF st) (k : κ) (e : Entry)
    (hget : mapGet st.elementMap k = some e) (hk : k ∉ items.map g) (i : Nat)
    (hi : st.dom[i]? = some e.element) :
    (processItems g st items).dom[i]? = some e.element := by
  induction items generalizing st with
  | nil => exact hi
  | cons item rest ih =>
    simp only [List.map_cons, List.mem_cons] at hk
    push_neg at hk
    rw [show processItems g st (item :: rest) = processItems g (processItem g st item) rest
      from rfl]
    refine ih (processItem g st item) (WF_processItem g st item hwf) ?_ hk.2 ?_
    · rw [processItem_mapGet_other g st item k hk.1]
      exact hget
    · exact processItem_dom_preserved g st item hwf k e hget hk.1 i hi

theorem processItems_not_mem_dom (g : JVal → κ) (st : RState κ) (items : List JVal)
    (x : Nat) (hlt : x < st.nextId) (hx : x ∉ st.dom) :
    x ∉ (processItems g st items).dom := by
  induction items generalizing st with
  | nil => exact hx
  | cons item rest ih =>
    rw [show processItems g st (item :: rest) = processItems g (processItem g st item) rest
      from rfl]
    exact ih (processItem g st item)
      (lt_of_lt_of_le hlt (processItem_nextId_le g st item))
      (processItem_not_mem_dom g st item x hlt hx)

theorem processItems_mem_keys (g : JVal → κ) (st : RState κ) (items : List JVal) (k : κ) :
    k ∈ (processItems g st items).elementMap.map Prod.fst ↔
      k ∈ st.elementMap.map Prod.fst ∨ k ∈ items.map g := by
  induction items generalizing st with
  | nil => simp [processItems]
  | cons item rest ih =>
    rw [show processItems g st (item :: rest) = processItems g (processItem g st item) rest
      from rfl]
    rw [ih (processItem g st item), processItem_mem_keys]
    simp only [List.map_cons, List.mem_cons]
    tauto

/-! ## The removal phase -/

theorem mapGet_filter_kept (m : List (κ × Entry)) (currentKeys : List κ) (k : κ)
    (hk : currentKeys.contains k) :
    mapGet (m.filter (fun kv => currentKeys.contains kv.1)) k = mapGet m k := by
  induction m with
  | nil => rfl
  | cons kv rest ih =>
    by_cases hkv : kv.1 ∈ currentKeys
    · have hfc : List.filter (fun kv => currentKeys.contains kv.1) (kv :: rest) =
          kv :: List.filter (fun kv => currentKeys.contains kv.1) rest := by
        simp [List.filter_cons, hkv]
      rw [hfc, mapGet_cons, mapGet_cons, ih]
    · have hfc : List.filter (fun kv => currentKeys.contains kv.1) (kv :: rest) =
          List.filter (fun kv => currentKeys.contains kv.1) rest := by
        simp [List.filter_cons, hkv]
      rw [hfc, ih, mapGet_cons]
      have hne : kv.1 ≠ k := by
        intro he
        rw [he] at hkv
        exact hkv (by simpa using hk)
      simp [hne]

theorem mem_keys_filter (m : List (κ × Entry)) (currentKeys : List κ) (k : κ) :
    k ∈ (m.filter (fun kv => currentKeys.contains kv.1)).map Prod.fst ↔
      k ∈ m.map Prod.fst ∧ currentKeys.contains k := by
  induction m with
  | nil => simp
  | cons kv rest ih =>
    by_cases hkv : kv.1 ∈ currentKeys
    · have hfc : List.filter (fun kv => currentKeys.contains kv.1) (kv :: rest) =
          kv :: List.filter (fun kv => currentKeys.contains kv.1) rest := by
        simp [List.filter_cons, hkv]
      rw [hfc]
      simp only [List.map_cons, List.mem_cons, ih]
      constructor
      · rintro (h | h)
        · exact ⟨Or.inl h, by rw [h]; simpa using hkv⟩
        · exact ⟨Or.inr h.1, h.2⟩
      · rintro ⟨h | h, hc⟩
        · exact Or.inl h
        · exact Or.inr ⟨h, hc⟩
    · have hfc : List.filter (fun kv => currentKeys.contains kv.1) (kv :: rest) =
          List.filter (fun kv => currentKeys.contains kv.1) rest := by
        simp [List.filter_cons, hkv]
      rw [hfc]
      simp only [List.map_cons, List.mem_cons, ih]
      constructor
      · rintro ⟨h, hc⟩
        exact ⟨Or.inr h, hc⟩
      · rintro ⟨h | h, hc⟩
        · refine absurd ?_ hkv
          rw [← h]
          simpa using hc
        · exact ⟨h, hc⟩

theorem foldl_erase_preserve (orphans : List (κ × Entry)) (d : List Nat) (x : Nat)
    (hx : x ∈ d) (hne : ∀ kv ∈ orphans, kv.2.element ≠ x) :
    x ∈ orphans.foldl (fun acc kv => acc.erase kv.2.element) d := by
  induction orphans generalizing d with
  | nil => exact hx
  | cons kv rest ih =>
    refine ih (d.erase kv.2.element) ?_ (fun kv' h => hne kv' (List.mem_cons_of_mem _ h))
    exact (List.mem_erase_of_ne
      (Ne.symm (hne kv (List.mem_cons_self _ _)))).mpr hx

theorem foldl_erase_stays_out (orphans : List (κ × Entry)) (d : List Nat) (x : Nat)
    (hx : x ∉ d) :
    x ∉ orphans.foldl (fun acc kv => acc.erase kv.2.element) d := by
  induction orphans generalizing d with
  | nil => exact hx
  | cons kv rest ih =>
    refine ih (d.erase kv.2.element) ?_
    intro hmem
    exact hx (List.mem_of_mem_erase hmem)

theorem foldl_erase_removes (orphans : List (κ × Entry)) (d : List Nat) (x : Nat)
    (hnodup : d.Nodup) (hx : ∃ kv ∈ orphans, kv.2.element = x) :
    x ∉ orphans.foldl (fun acc kv => acc.erase kv.2.element) d := by
  induction orphans generalizing d with
  | nil => simp at hx
  | cons kv rest ih =>
    by_cases he : kv.2.element = x
    · refine foldl_erase_stays_out rest (d.erase kv.2.element) x ?_
      rw [he]
      exact hnodup.not_mem_erase
    · rcases hx with ⟨kv', hkv', hx'⟩
      rcases List.mem_cons.mp hkv' with h | h
      · exact absurd (h ▸ hx') he
      · exact ih (d.erase kv.2.element) (hnodup.erase _) ⟨kv', h, hx'⟩

theorem removeOrphans_elementMap (st : RState κ) (currentKeys : List κ) :
    (removeOrphans st currentKeys).elementMap =
      st.elementMap.filter (fun kv => currentKeys.contains kv.1) := rfl

theorem removeOrphans_dom (st : RState κ) (currentKeys : List κ) :
    (removeOrphans st currentKeys).dom =
      (st.elementMap.filter (fun kv => !currentKeys.contains kv.1)).foldl
        (fun d kv => d.erase kv.2.element) st.dom := rfl

theorem reconcile_def (g : JVal → κ) (st : RState κ) (items : List JVal) :
    reconcile g st items =
      removeOrphans (processItems g st items) (items.map g) := rfl

/-- An entry whose key is among the current keys survives the removal
phase: its binding is intact and its node stays mounted. -/
theorem removeOrphans_keeps (st : RState κ) (currentKeys : List κ)
    (hwf : WF st) (k : κ) (e : Entry)
    (hget : mapGet st.elementMap k = some e) (hk : k ∈ currentKeys) :
    mapGet (removeOrphans st currentKeys).elementMap k = some e ∧
    e.element ∈ (removeOrphans st currentKeys).dom := by
  constructor
  · rw [removeOrphans_elementMap, mapGet_filter_kept _ _ _ (by simpa using hk)]
    exact hget
  · rw [removeOrphans_dom]
    apply foldl_erase_preserve
    · exact hwf.elemsInDom _ (mapGet_mem _ _ _ hget)
    · intro kv hkv
      rw [List.mem_filter] at hkv
      intro he
      have hkve : kv = (k, e) :=
        List.inj_on_of_nodup_map hwf.elemsNodup hkv.1 (mapGet_mem _ _ _ hget) he
      have := hkv.2
      rw [hkve] at this
      simp at this
      exact this hk

/-- With no orphaned keys, the removal phase leaves the container alone. -/
theorem removeOrphans_id_dom (st : RState κ) (currentKeys : List κ)
    (h : ∀ kv ∈ st.elementMap, kv.1 ∈ currentKeys) :
    (removeOrphans st currentKeys).dom = st.dom := by
  rw [removeOrphans_dom]
  have hnil : st.elementMap.filter (fun kv => !currentKeys.contains kv.1) = [] := by
    rw [List.filter_eq_nil_iff]
    intro kv hkv
    simpa using h kv hkv
  rw [hnil]
  rfl

/-- C7.  Reconciler key-set invariant: after a full reconciliation pass the
tracked key set equals the current item list's key set exactly, and the
node of every disappeared key is detached from the container. -/
theorem reconciler_key_set_invariant (g : JVal → κ) (st : RState κ)
    (items : List JVal) (hwf : WF st) :
    (∀ k, k ∈ (reconcile g st items).elementMap.map Prod.fst ↔ k ∈ items.map g) ∧
    (∀ kv ∈ st.elementMap, kv.1 ∉ items.map g →
      kv.2.element ∉ (reconcile g st items).dom) := by
  constructor
  · intro k
    rw [reconcile_def, removeOrphans_elementMap, mem_keys_filter,
      processItems_mem_keys]
    constructor
    · rintro ⟨_, hc⟩
      simpa using hc
    · intro h
      exact ⟨Or.inr h, by simpa using h⟩
  · intro kv hkv hnotin
    have hwf₃ : WF (processItems g st items) := WF_processItems g st items hwf
    have hget : mapGet st.elementMap kv.1 = some kv.2 :=
      mem_mapGet _ _ _ hwf.mapKeysNodup hkv
    have hget₃ : mapGet (processItems g st items).elementMap kv.1 = some kv.2 := by
      rw [processItems_mapGet_other g st items kv.1 hnotin]
      exact hget
    rw [reconcile_def, removeOrphans_dom]
    apply foldl_erase_removes
    · exact hwf₃.domNodup
    · refine ⟨(kv.1, kv.2), ?_, rfl⟩
      rw [List.mem_filter]
      refine ⟨mapGet_mem _ _ _ hget₃, by simpa using hnotin⟩

theorem reconciler_key_set_invariant_witness :
    ((7 : Int) ∈ (reconcile (fun v => match v with | .jnum i => i | _ => 0)
        ⟨[(5, ⟨10, JVal.jnum 5⟩)], [10], 11⟩
        [JVal.jnum 7]).elementMap.map Prod.fst ↔
      (7 : Int) ∈ [JVal.jnum 7].map (fun v => match v with | .jnum i => i | _ => 0)) ∧
    (10 : Nat) ∉ (reconcile (fun v => match v with | .jnum i => i | _ => 0)
        ⟨[(5, ⟨10, JVal.jnum 5⟩)], [10], 11⟩ [JVal.jnum 7]).dom := by
  have h := reconciler_key_set_invariant
    (fun v => match v with | .jnum i => i | _ => 0)
    ⟨[(5, ⟨10, JVal.jnum 5⟩)], [10], 11⟩ [JVal.jnum 7]
    ⟨by decide, by decide, by decide, by decide, by decide, by decide⟩
  refine ⟨h.1 7, ?_⟩
  have := h.2 (5, ⟨10, JVal.jnum 5⟩) (by simp) (by decide)
  simpa using this

/-- C6.  List reconciliation stability, over one full reconciliation pass
with pairwise-distinct item keys.  An item whose key is tracked and whose
value is deep-equal to the stored snapshot keeps its entry and node
untouched (same node, still mounted, and — when no key disappeared — at the
same position).  An item whose key is tracked but whose value differs gets
a freshly rendered node (never seen by the container before) that replaces
the old node, which is detached; when no key disappeared, the fresh node
sits at exactly the old node's position. -/
theorem list_reconciliation_stability (g : JVal → κ) (st : RState κ)
    (items : List JVal) (hwf : WF st) (hkeys : (items.map g).Nodup)
    (item : JVal) (hmem : item ∈ items) (e : Entry)
    (hentry : mapGet st.elementMap (g item) = some e) :
    (isDeepEqual item e.data = true →
      mapGet (reconcile g st items).elementMap (g item) = some e ∧
      e.element ∈ (reconcile g st items).dom ∧
      ((∀ kv ∈ st.elementMap, kv.1 ∈ items.map g) →
        ∀ i : Nat, st.dom[i]? = some e.element →
          (reconcile g st items).dom[i]? = some e.element)) ∧
    (isDeepEqual item e.data = false →
      ∃ n : Nat, st.nextId ≤ n ∧ n ∉ st.dom ∧
        mapGet (reconcile g st items).elementMap (g item) = some (Entry.mk n item) ∧
        n ∈ (reconcile g st items).dom ∧
        e.element ∉ (reconcile g st items).dom ∧
        ((∀ kv ∈ st.elementMap, kv.1 ∈ items.map g) →
          ∀ i : Nat, st.dom[i]? = some e.element →
            (reconcile g st items).dom[i]? = some n)) := by
  obtain ⟨pre, post, rfl⟩ := List.append_of_mem hmem
  have hmapg : (pre ++ item :: post).map g = pre.map g ++ g item :: post.map g := by
    simp
  rw [hmapg] at hkeys
  rw [List.nodup_append] at hkeys
  have hkpre : g item ∉ pre.map g := by
    intro h
    exact hkeys.2.2 h (List.mem_cons_self _ _)
  have hkpost : g item ∉ post.map g := by
    have := hkeys.2.1
    rw [List.nodup_cons] at this
    exact this.1
  have hkitems : g item ∈ (pre ++ item :: post).map g := by simp
  -- the items phase, staged around the item of interest
  have hwf₁ : WF (processItems g st pre) := WF_processItems g st pre hwf
  have hget₁ : mapGet (processItems g st pre).elementMap (g item) = some e := by
    rw [processItems_mapGet_other g st pre _ hkpre]
    exact hentry
  have hn₁ : st.nextId ≤ (processItems g st pre).nextId :=
    processItems_nextId_le g st pre
  have hsplit : processItems g st (pre ++ item :: post) =
      processItems g (processItem g (processItems g st pre) item) post := by
    show List.foldl (processItem g) st (pre ++ item :: post) = _
    rw [List.foldl_append]
    rfl
  -- all of the original map's keys stay tracked through the items phase,
  -- so the no-orphan hypothesis transfers to the processed state
  have hnoorph : (∀ kv ∈ st.elementMap, kv.1 ∈ (pre ++ item :: post).map g) →
      ∀ kv ∈ (processItems g st (pre ++ item :: post)).elementMap,
        kv.1 ∈ (pre ++ item :: post).map g := by
    intro H kv hkv
    have hmemk : kv.1 ∈ (processItems g st (pre ++ item :: post)).elementMap.map Prod.fst :=
      List.mem_map_of_mem Prod.fst hkv
    rw [processItems_mem_keys] at hmemk
    rcases hmemk with h | h
    · rcases List.mem_map.mp h with ⟨kv', hkv', hfst⟩
      rw [← hfst]
      exact H kv' hkv'
    · exact h
  constructor
  · -- the deep-equal branch: the pass leaves entry and node alone
    intro hde
    have hstep : processItem g (processItems g st pre) item = processItems g st pre := by
      rw [processItem, hget₁]
      simp [hde]
    have hget₃ : mapGet (processItems g st (pre ++ item :: post)).elementMap (g item) =
        some e := by
      rw [hsplit, hstep, processItems_mapGet_other g _ post _ hkpost]
      exact hget₁
    have hwf₃ : WF (processItems g st (pre ++ item :: post)) := by
      exact WF_processItems g st _ hwf
    have hkeep := removeOrphans_keeps (processItems g st (pre ++ item :: post))
      ((pre ++ item :: post).map g) hwf₃ (g item) e hget₃ hkitems
    refine ⟨hkeep.1, hkeep.2, ?_⟩
    intro H i hi
    have hi₁ : (processItems g st pre).dom[i]? = some e.element :=
      processItems_dom_preserved g st pre hwf _ e hentry hkpre i hi
    have hi₃ : (processItems g st (pre ++ item :: post)).dom[i]? = some e.element := by
      rw [hsplit, hstep]
      exact processItems_dom_preserved g (processItems g st pre) post hwf₁ _ e
        hget₁ hkpost i hi₁
    rw [reconcile_def, removeOrphans_id_dom _ _ (hnoorph H)]
    exact hi₃
  · -- the differing branch: a fresh node replaces the old one in place
    intro hde
    set st₁ := processItems g st pre with hst₁
    have hstep : processItem g st₁ item =
        ({ elementMap := mapSet st₁.elementMap (g item) ⟨st₁.nextId, item⟩,
           dom := replaceChild st₁.dom st₁.nextId e.element,
           nextId := st₁.nextId + 1 } : RState κ) := by
      rw [processItem, hget₁]
      simp [hde]
    have holdlt : e.element < st.nextId := hwf.elemsLt _ (mapGet_mem _ _ _ hentry)
    have holdin₁ : e.element ∈ st₁.dom := hwf₁.elemsInDom _ (mapGet_mem _ _ _ hget₁)
    have hne : st₁.nextId ≠ e.element := by
      have : e.element < st₁.nextId := lt_of_lt_of_le holdlt hn₁
      omega
    refine ⟨st₁.nextId, hn₁, ?_, ?_, ?_, ?_, ?_⟩
    · intro hmemdom
      exact absurd (hwf.domLt _ hmemdom) (by omega)
    · -- the entry now maps to the fresh node, and survives the removal phase
      have hget₂ : mapGet (processItem g st₁ item).elementMap (g item) =
          some ⟨st₁.nextId, item⟩ := by
        rw [hstep]
        exact mapGet_set_self _ _ _
      have hget₃ : mapGet (processItems g st (pre ++ item :: post)).elementMap (g item) =
          some ⟨st₁.nextId, item⟩ := by
        rw [hsplit, processItems_mapGet_other g _ post _ hkpost]
        exact hget₂
      exact (removeOrphans_keeps _ _ (WF_processItems g st _ hwf) _ _ hget₃ hkitems).1
    · have hget₂ : mapGet (processItem g st₁ item).elementMap (g item) =
          some ⟨st₁.nextId, item⟩ := by
        rw [hstep]
        exact mapGet_set_self _ _ _
      have hget₃ : mapGet (processItems g st (pre ++ item :: post)).elementMap (g item) =
          some ⟨st₁.nextId, item⟩ := by
        rw [hsplit, processItems_mapGet_other g _ post _ hkpost]
        exact hget₂
      exact (removeOrphans_keeps _ _ (WF_processItems g st _ hwf) _ _ hget₃ hkitems).2
    · -- the old node is detached: replaced during the items phase, never re-added
      have hout₂ : e.element ∉ (processItem g st₁ item).dom := by
        rw [hstep]
        exact replaceChild_not_mem_old _ _ _ hne
      have hlt₂ : e.element < (processItem g st₁ item).nextId := by
        rw [hstep]
        show e.element < st₁.nextId + 1
        have : e.element < st₁.nextId := lt_of_lt_of_le holdlt hn₁
        omega
      have hout₃ : e.element ∉ (processItems g st (pre ++ item :: post)).dom := by
        rw [hsplit]
        exact processItems_not_mem_dom g _ post _ hlt₂ hout₂
      rw [reconcile_def, removeOrphans_dom]
      exact foldl_erase_stays_out _ _ _ hout₃
    · -- with no orphans, the fresh node sits exactly where the old one was
      intro H i hi
      have hi₁ : st₁.dom[i]? = some e.element :=
        processItems_dom_preserved g st pre hwf _ e hentry hkpre i hi
      have hi₂ : (processItem g st₁ item).dom[i]? = some st₁.nextId := by
        rw [hstep]
        show (replaceChild st₁.dom st₁.nextId e.element)[i]? = _
        rw [replaceChild_getElem?, hi₁]
        simp
      have hwf₂ : WF (processItem g st₁ item) := WF_processItem g st₁ item hwf₁
      have hget₂ : mapGet (processItem g st₁ item).elementMap (g item) =
          some ⟨st₁.nextId, item⟩ := by
        rw [hstep]
        exact mapGet_set_self _ _ _
      have hi₃ : (processItems g st (pre ++ item :: post)).dom[i]? = some st₁.nextId := by
        rw [hsplit]
        exact processItems_dom_preserved g (processItem g st₁ item) post hwf₂ _
          ⟨st₁.nextId, item⟩ hget₂ hkpost i hi₂
      rw [reconcile_def, removeOrphans_id_dom _ _ (hnoorph H)]
      exact hi₃

theorem list_reconciliation_stability_witness :
    (mapGet (reconcile (fun v => match v with | JVal.jnum i => i | _ => (0 : Int))
        ⟨[(1, ⟨10, JVal.jnum 1⟩), (2, ⟨11, JVal.jstr "b"⟩)], [10, 11], 12⟩
        [JVal.jnum 1, JVal.jnum 2]).elementMap 1 = some ⟨10, JVal.jnum 1⟩) ∧
    (∃ n : Nat, 12 ≤ n ∧ n ∉ [10, 11] ∧
      mapGet (reconcile (fun v => match v with | JVal.jnum i => i | _ => (0 : Int))
        ⟨[(1, ⟨10, JVal.jnum 1⟩), (2, ⟨11, JVal.jstr "b"⟩)], [10, 11], 12⟩
        [JVal.jnum 1, JVal.jnum 2]).elementMap 2 = some (Entry.mk n (JVal.jnum 2)) ∧
      n ∈ (reconcile (fun v => match v with | JVal.jnum i => i | _ => (0 : Int))
        ⟨[(1, ⟨10, JVal.jnum 1⟩), (2, ⟨11, JVal.jstr "b"⟩)], [10, 11], 12⟩
        [JVal.jnum 1, JVal.jnum 2]).dom ∧
      (11 : Nat) ∉ (reconcile (fun v => match v with | JVal.jnum i => i | _ => (0 : Int))
        ⟨[(1, ⟨10, JVal.jnum 1⟩), (2, ⟨11, JVal.jstr "b"⟩)], [10, 11], 12⟩
        [JVal.jnum 1, JVal.jnum 2]).dom ∧
      ((∀ kv ∈ [((1 : Int), Entry.mk 10 (JVal.jnum 1)), (2, Entry.mk 11 (JVal.jstr "b"))],
          kv.1 ∈ [JVal.jnum 1, JVal.jnum 2].map
            (fun v => match v with | JVal.jnum i => i | _ => (0 : Int))) →
        ∀ i : Nat, ([10, 11] : List Nat)[i]? = some 11 →
          (reconcile (fun v => match v with | JVal.jnum i => i | _ => (0 : Int))
            ⟨[(1, ⟨10, JVal.jnum 1⟩), (2, ⟨11, JVal.jstr "b"⟩)], [10, 11], 12⟩
            [JVal.jnum 1, JVal.jnum 2]).dom[i]? = some n)) := by
  have hwf : WF (⟨[(1, ⟨10, JVal.jnum 1⟩), (2, ⟨11, JVal.jstr "b"⟩)], [10, 11], 12⟩ :
      RState Int) :=
    ⟨by decide, by decide, by decide, by decide, by decide, by decide⟩
  have h₁ := (list_reconciliation_stability
    ((fun v => match v with | JVal.jnum i => i | _ => 0) : JVal → Int)
    ⟨[(1, ⟨10, JVal.jnum 1⟩), (2, ⟨11, JVal.jstr "b"⟩)], [10, 11], 12⟩
    [JVal.jnum 1, JVal.jnum 2] hwf (by decide)
    (JVal.jnum 1) (List.mem_cons_self _ _) ⟨10, JVal.jnum 1⟩ (by rfl)).1
    (by simp [isDeepEqual, jsStrictEq])
  have h₂ := (list_reconciliation_stability
    ((fun v => match v with | JVal.jnum i => i | _ => 0) : JVal → Int)
    ⟨[(1, ⟨10, JVal.jnum 1⟩), (2, ⟨11, JVal.jstr "b"⟩)], [10, 11], 12⟩
    [JVal.jnum 1, JVal.jnum 2] hwf (by decide)
    (JVal.jnum 2) (List.mem_cons_of_mem _ (List.mem_cons_self _ _))
    ⟨11, JVal.jstr "b"⟩ (by rfl)).2
    (by simp [isDeepEqual, jsStrictEq])
  exact ⟨h₁.1, h₂⟩

end Urwald
